import Mathlib

set_option maxHeartbeats 2000000
set_option maxRecDepth 8000

deriving instance DecidableEq for Except

/- Verification of the decode substitution engine: a shallow embedding of
   `get_dictionary`, `translate` and `remove_tags` from decode.py, working on
   `List Char` so that every definition is executable by kernel reduction.
   Recursive scanners take an explicit fuel argument (always instantiated with
   `length + 1`, which is provably sufficient) so that they are structurally
   recursive and reduce definitionally. -/

namespace Decode

abbrev Str := List Char

abbrev TDict := List (Str × Str)

/-- Errors of the dictionary building pipeline.  `noPairs` carries the
    user-facing message of the "no key-value pairs found" ValueError;
    `unpack` is the tuple-unpacking ValueError raised when a line does not
    split at the delimiter into exactly two parts; `badCode` and
    `unknownName` are the decoding errors of the unicode unescaping step. -/
inductive DictErr where
  | noPairs (msg : Str)
  | unpack
  | badCode
  | unknownName
  deriving DecidableEq

/-- Literal transcription of the message of the "no key-value pairs found"
    ValueError raised by `get_dictionary`. -/
def noPairsMessage : Str :=
  ("Error: The dictionary does not have a valid format (no key-value pairs found).\n" ++
   "The dictionary has to be delimited using \"/\", one pair per line:\n" ++
   "a/b\nc/d\n...").toList

/-- Boolean prefix test on character lists. -/
def pfx : Str → Str → Bool
  | [], _ => true
  | _ :: _, [] => false
  | a :: as, b :: bs => a = b && pfx as bs

/-- Split a list at the first occurrence of `c`: returns the part before the
    first `c` and the part after it, or `none` when `c` does not occur.  This
    is the semantics of a greedy `[^c]*c` regex fragment. -/
def splitAtFirst (c : Char) : Str → Option (Str × Str)
  | [] => none
  | x :: xs =>
    if x = c then some ([], xs)
    else (splitAtFirst c xs).map (fun p => (x :: p.1, p.2))

/-- Insert a key into a length-descending list, after all keys of length
    at least its own (the stable position). -/
def insByLen (x : Str) : List Str → List Str
  | [] => [x]
  | y :: ys => if x.length < y.length then y :: insByLen x ys else x :: y :: ys

/-- Stable sort of the key list by descending length: the embedding of
    `sorted(transdict.keys(), key=len, reverse=True)`. -/
def sortKeysDesc (ks : List Str) : List Str := ks.foldr insByLen []

/-- Association-list lookup: the embedding of `transdict[k]`. -/
def lk : TDict → Str → Option Str
  | [], _ => none
  | kv :: d, k => if kv.1 = k then some kv.2 else lk d k

/-- First alternative of the key alternation that matches at the current
    position (regex alternation tries alternatives left to right). -/
def firstAlt : List Str → Str → Option Str
  | [], _ => none
  | k :: ks, cs => if pfx k cs then some k else firstAlt ks cs

/-- The alternative list of the compiled pattern
    `re.compile('|'.join(sorted(keys, key=len, reverse=True)))`: keys in
    length-descending stable order; joining zero keys yields the empty
    pattern, which behaves as the single empty alternative. -/
def alts0 (d : TDict) : List Str :=
  if (sortKeysDesc (d.map Prod.fst)).isEmpty then [[]]
  else sortKeysDesc (d.map Prod.fst)

/-- One pass of `ciphers_pattern.sub(lambda l: transdict[l.group()], text)`:
    at each position the first (longest) matching key is replaced by its
    value and the scan continues after the matched input; a failing
    dictionary lookup (KeyError) yields `none`.  An empty match emits the
    replacement and then copies the current character. -/
def cipherSubGo (d : TDict) (alts : List Str) : Nat → Str → Option Str
  | 0, _ => none
  | f + 1, cs =>
    match firstAlt alts cs with
    | some k =>
      match lk d k with
      | none => none
      | some v =>
        if k.isEmpty then
          match cs with
          | [] => some v
          | c :: tl => (cipherSubGo d alts f tl).map (fun r => v ++ c :: r)
        else (cipherSubGo d alts f (cs.drop k.length)).map (fun r => v ++ r)
    | none =>
      match cs with
      | [] => some []
      | c :: tl => (cipherSubGo d alts f tl).map (fun r => c :: r)

/-- Substitution over one translatable span. -/
def cipherSub (d : TDict) (cs : Str) : Option Str :=
  cipherSubGo d (alts0 d) (cs.length + 1) cs

/-- Characters that end a translatable prefix: the negated class `[^<\[#]`. -/
def notSpec (c : Char) : Bool := !(c = '<' || c = '[' || c = '#')

/-- The tag-run matcher `((?:<[^>]*>)|(?:\[[^\]]*\]))*`: consume as many
    complete angle/bracket tags as possible, each extending to the first
    closing character; an opener with no closer in the rest of the document
    matches zero further tags. -/
def protTagsGo : Nat → Str → Str × Str
  | 0, cs => ([], cs)
  | f + 1, cs =>
    match cs with
    | [] => ([], [])
    | c :: tl =>
      if c = '<' then
        match splitAtFirst '>' tl with
        | some (mid, rest) =>
          let tr := protTagsGo f rest
          ('<' :: (mid ++ '>' :: tr.1), tr.2)
        | none => ([], c :: tl)
      else if c = '[' then
        match splitAtFirst ']' tl with
        | some (mid, rest) =>
          let tr := protTagsGo f rest
          ('[' :: (mid ++ ']' :: tr.1), tr.2)
        | none => ([], c :: tl)
      else ([], c :: tl)

/-- Wrapper of the tag-run matcher with sufficient fuel. -/
def protTags (cs : Str) : Str × Str := protTagsGo (cs.length + 1) cs

/-- The trailing comment matcher `(#.*$)?` under MULTILINE: a `#` starts a
    comment extending up to (excluding) the next newline. -/
def comTail : Str → Str × Str
  | [] => ([], [])
  | c :: tl =>
    if c = '#' then
      ('#' :: tl.takeWhile (fun x => x ≠ '\n'), tl.dropWhile (fun x => x ≠ '\n'))
    else ([], c :: tl)

/-- The protected-run matcher, group 2 of the segmentation regex: a run of
    complete tags optionally followed by a comment to end of line. -/
def protRun (cs : Str) : Str × Str :=
  ((protTags cs).1 ++ (comTail (protTags cs).2).1, (comTail (protTags cs).2).2)

/-- The embedding of `translate`: repeat `re.findall` steps of the pattern
    `([^<\[#]*)(((?:<[^>]*>)|(?:\[[^\]]*\]))*(#.*$)?)`, substituting inside
    group 1 and copying group 2.  A position where the whole pattern only
    matches the empty string (an unclosed `<` or `[`) contributes
    `sub('')` and the offending character is skipped, exactly as
    `re.findall` advances past an empty match. -/
def translateGo (d : TDict) : Nat → Str → Option Str
  | 0, _ => none
  | f + 1, cs =>
    if (cs.takeWhile notSpec).isEmpty && (protRun (cs.dropWhile notSpec)).1.isEmpty then
      match cs with
      | [] => cipherSub d []
      | _ :: tl =>
        (cipherSub d []).bind fun a => (translateGo d f tl).bind fun b => some (a ++ b)
    else
      (cipherSub d (cs.takeWhile notSpec)).bind fun a =>
        (translateGo d f (protRun (cs.dropWhile notSpec)).2).bind fun b =>
          some (a ++ (protRun (cs.dropWhile notSpec)).1 ++ b)

/-- Embedding of `translate(text, transdict)`; `none` models a raised
    KeyError. -/
def translate (d : TDict) (cs : Str) : Option Str :=
  translateGo d (cs.length + 1) cs

/-- The match list produced by `re.findall` on the segmentation regex: the
    (translatable, protected) span pairs of the document, in order, with
    empty pairs at skipped characters and at end of input. -/
def segmentsGo : Nat → Str → List (Str × Str)
  | 0, _ => []
  | f + 1, cs =>
    if (cs.takeWhile notSpec).isEmpty && (protRun (cs.dropWhile notSpec)).1.isEmpty then
      match cs with
      | [] => [([], [])]
      | _ :: tl => ([], []) :: segmentsGo f tl
    else
      (cs.takeWhile notSpec, (protRun (cs.dropWhile notSpec)).1) ::
        segmentsGo f (protRun (cs.dropWhile notSpec)).2

/-- Region segmentation of a document. -/
def segments (cs : Str) : List (Str × Str) := segmentsGo (cs.length + 1) cs

/-- Recombination of a segmentation: substitute every translatable span and
    pass every protected span through verbatim. -/
def subSegs (d : TDict) (segs : List (Str × Str)) : Option Str :=
  segs.foldr
    (fun m acc =>
      (cipherSub d m.1).bind fun a => acc.bind fun b => some (a ++ m.2 ++ b))
    (some [])

/-- A well-formed angle tag: `<`, content free of `>`, then `>`. -/
def IsAngleTag (p : Str) : Prop := ∃ mid, p = '<' :: (mid ++ ['>']) ∧ '>' ∉ mid

/-- A well-formed square-bracket tag: `[`, content free of `]`, then `]`. -/
def IsSquareTag (p : Str) : Prop := ∃ mid, p = '[' :: (mid ++ [']']) ∧ ']' ∉ mid

/-- A comment running to end of line: `#` followed by newline-free text. -/
def IsComment (p : Str) : Prop := ∃ b, p = '#' :: b ∧ '\n' ∉ b

/-- A protected run as the specification describes it: zero or more
    well-formed tags followed by an optional trailing comment. -/
inductive SpecProtRun : Str → Prop
  | nil : SpecProtRun []
  | comment {c : Str} : IsComment c → SpecProtRun c
  | tag {t r : Str} : IsAngleTag t ∨ IsSquareTag t → SpecProtRun r →
      SpecProtRun (t ++ r)

/-- Python regex metacharacters: keys are interpolated into the alternation
    pattern verbatim, so the embedding (which treats keys as literal text)
    is faithful exactly for keys avoiding these characters. -/
def reMeta : Str :=
  ['\\', '.', '^', '$', '*', '+', '?', '(', ')', '[', ']', '|', '\x7b', '\x7d']

/-- A key that the regex engine treats as its literal text. -/
def litKey (k : Str) : Bool := k.all (fun c => !(reMeta.contains c))

/-- A document in which every `<` is eventually followed by `>` and every
    `[` is eventually followed by `]`. -/
def closedOk (cs : Str) : Bool :=
  cs.tails.all fun t =>
    match t with
    | '<' :: tl => decide ('>' ∈ tl)
    | '[' :: tl => decide (']' ∈ tl)
    | _ => true

/- ---------------- dictionary construction ---------------- -/

/-- Hexadecimal digit value (the class `[0-9a-fA-F]`). -/
def hexVal (c : Char) : Option Nat :=
  if '0' ≤ c ∧ c ≤ '9' then some (c.toNat - '0'.toNat)
  else if 'a' ≤ c ∧ c ≤ 'f' then some (c.toNat - 'a'.toNat + 10)
  else if 'A' ≤ c ∧ c ≤ 'F' then some (c.toNat - 'A'.toNat + 10)
  else none

/-- Read exactly `n` hexadecimal digits, accumulating their value. -/
def readHex : Nat → Nat → Str → Option (Nat × Str)
  | 0, acc, rest => some (acc, rest)
  | n + 1, acc, c :: rest =>
    match hexVal c with
    | some v => readHex n (acc * 16 + v) rest
    | none => none
  | _ + 1, _, [] => none

/-- Embedding of the unescaping `re.sub` of `get_dictionary`: scan left to
    right for the three escape forms; `\uXXXX` (exactly 4 hex digits) and
    `\UXXXXXXXX` (exactly 8 hex digits) decode to the character of that
    codepoint, `\N` followed by a brace-enclosed non-empty name consults the
    external Unicode name table `look`.  A `\U` value above 0x10FFFF or an
    unknown name raises; text not matching any escape form is copied
    unchanged (the scan advances one character past a failed match).
    Codepoints are realised with `Char.ofNat`; the surrogate range, which
    Python would keep as lone surrogate code units, is outside `Char` and is
    mapped to NUL, which no claim depends on. -/
def unescapeGo (look : Str → Option Nat) : Nat → Str → Except DictErr Str
  | 0, _ => .error .unknownName
  | f + 1, [] => .ok []
  | f + 1, c1 :: cs1 =>
    if c1 = '\\' then
      match cs1 with
      | [] => .ok ['\\']
      | c2 :: cs2 =>
        if c2 = 'u' then
          match readHex 4 0 cs2 with
          | some (v, r) => (unescapeGo look f r).map (fun o => Char.ofNat v :: o)
          | none => (unescapeGo look f cs1).map (fun o => '\\' :: o)
        else if c2 = 'U' then
          match readHex 8 0 cs2 with
          | some (v, r) =>
            if v ≤ 1114111 then (unescapeGo look f r).map (fun o => Char.ofNat v :: o)
            else .error .badCode
          | none => (unescapeGo look f cs1).map (fun o => '\\' :: o)
        else if c2 = 'N' then
          match cs2 with
          | c3 :: cs3 =>
            if c3 = '\x7b' then
              match splitAtFirst '\x7d' cs3 with
              | some (name, r) =>
                if name.isEmpty then (unescapeGo look f cs1).map (fun o => '\\' :: o)
                else
                  match look name with
                  | some v => (unescapeGo look f r).map (fun o => Char.ofNat v :: o)
                  | none => .error .unknownName
              | none => (unescapeGo look f cs1).map (fun o => '\\' :: o)
            else (unescapeGo look f cs1).map (fun o => '\\' :: o)
          | [] => (unescapeGo look f cs1).map (fun o => '\\' :: o)
        else (unescapeGo look f cs1).map (fun o => '\\' :: o)
    else (unescapeGo look f cs1).map (fun o => c1 :: o)

/-- Unicode unescaping with sufficient fuel. -/
def unescape (look : Str → Option Nat) (cs : Str) : Except DictErr Str :=
  unescapeGo look (cs.length + 1) cs

/-- A trivial Unicode name table for concrete evaluations that involve no
    named escape. -/
def noNames : Str → Option Nat := fun _ => none

/-- A suffix beginning a well-formed `\U` escape whose codepoint exceeds
    0x10FFFF (the decoding error Python raises on it). -/
def badU (t : Str) : Bool :=
  match t with
  | '\\' :: 'U' :: r =>
    match readHex 8 0 r with
    | some (v, _) => decide (1114111 < v)
    | none => false
  | _ => false

/-- A suffix beginning a well-formed `\N` escape whose name the table does
    not know. -/
def badN (look : Str → Option Nat) (t : Str) : Bool :=
  match t with
  | '\\' :: 'N' :: '\x7b' :: r =>
    match splitAtFirst '\x7d' r with
    | some (name, _) => !name.isEmpty && (look name).isNone
    | none => false
  | _ => false

/-- The line terminators recognised by Python `str.splitlines` (besides the
    two-character `\r\n`). -/
def pyNl : Str :=
  ['\n', '\r', '\x0b', '\x0c', '\x1c', '\x1d', '\x1e', '\u0085', '\u2028', '\u2029']

/-- Worker of `splitlines`: accumulate the current line, splitting at every
    terminator and treating `\r\n` as one terminator; a trailing terminator
    produces no extra empty line. -/
def splitlinesGo : Nat → Str → Str → List Str
  | 0, _, cur => if cur.isEmpty then [] else [cur]
  | _ + 1, [], cur => if cur.isEmpty then [] else [cur]
  | f + 1, c :: rest, cur =>
    if c = '\r' then
      if rest.head? = some '\n' then cur :: splitlinesGo f (rest.drop 1) []
      else cur :: splitlinesGo f rest []
    else if pyNl.contains c then cur :: splitlinesGo f rest []
    else splitlinesGo f rest (cur ++ [c])

/-- Embedding of `str.splitlines`. -/
def splitlines (cs : Str) : List Str := splitlinesGo (cs.length + 1) cs []

/-- Characters stripped by Python `str.strip()`. -/
def pyWs : Str :=
  [' ', '\t', '\n', '\r', '\x0b', '\x0c', '\x1c', '\x1d', '\x1e',
   '\u0085', '\u00A0', '\u1680',
   '\u2000', '\u2001', '\u2002', '\u2003', '\u2004', '\u2005', '\u2006',
   '\u2007', '\u2008', '\u2009', '\u200A',
   '\u2028', '\u2029', '\u202F', '\u205F', '\u3000']

/-- Embedding of `str.strip()`. -/
def pyStrip (cs : Str) : Str :=
  ((cs.dropWhile (fun c => pyWs.contains c)).reverse.dropWhile
    (fun c => pyWs.contains c)).reverse

/-- Split a list at every occurrence of `c` (Python `str.split(c)`). -/
def splitOn (c : Char) : Str → List Str
  | [] => [[]]
  | x :: xs =>
    if x = c then [] :: splitOn c xs
    else
      match splitOn c xs with
      | h :: t => (x :: h) :: t
      | [] => [[x]]

/-- Python dict insertion: updating an existing key keeps its position,
    a new key is appended. -/
def dinsert (d : TDict) (k v : Str) : TDict :=
  if d.any (fun kv => kv.1 = k) then
    d.map (fun kv => if kv.1 = k then (k, v) else kv)
  else d ++ [(k, v)]

/-- One line of the dictionary parsing loop: lines without the delimiter or
    starting with the comment character are skipped; otherwise the part
    before the first `#` is split at `/` and must yield exactly a key and a
    value (the tuple unpacking), which are stripped and inserted. -/
def procLine (d : TDict) (line : Str) : Except DictErr TDict :=
  if line.contains '/' && line.head? != some '#' then
    match splitOn '/' (line.takeWhile (fun c => c ≠ '#')) with
    | [k, v] => .ok (dinsert d (pyStrip k) (pyStrip v))
    | _ => .error .unpack
  else .ok d

/-- Embedding of `get_dictionary(dict_data, reverse)`. -/
def get_dictionary (look : Str → Option Nat) (raw : Str) (rev : Bool) :
    Except DictErr TDict :=
  match unescape look raw with
  | .error e => .error e
  | .ok txt =>
    match (splitlines txt).foldlM procLine [] with
    | .error e => .error e
    | .ok d =>
      if d.isEmpty then .error (.noPairs noPairsMessage)
      else .ok (if rev then d.foldl (fun acc kv => dinsert acc kv.2 kv.1) [] else d)

/-- A line yielding a valid key/value pair: it contains the delimiter, does
    not start with the comment character, and its pre-comment part splits at
    the delimiter into exactly two parts. -/
def lineValid (line : Str) : Bool :=
  (line.contains '/' && line.head? != some '#') &&
    decide ((splitOn '/' (line.takeWhile (fun c => c ≠ '#'))).length = 2)

/-- A line on which the parsing loop raises the unpacking error: it contains
    the delimiter and is not a comment, but its pre-comment part does not
    split into exactly two parts. -/
def lineBad (line : Str) : Bool :=
  (line.contains '/' && line.head? != some '#') &&
    decide ((splitOn '/' (line.takeWhile (fun c => c ≠ '#'))).length ≠ 2)

/- ---------------- tag stripping ---------------- -/

/-- Uppercase ASCII letter (the class `[A-Z]`). -/
def isUC (c : Char) : Bool := 'A' ≤ c && c ≤ 'Z'

/-- Consume the optional marker
    `(?:cleartext|CLEARTEXT|Cleartext)(?:[ -][A-Z]{2})?[ -]*` at the start of
    an angle tag's content. -/
def markerEat (cs : Str) : Str :=
  if pfx "cleartext".toList cs || pfx "CLEARTEXT".toList cs ||
      pfx "Cleartext".toList cs then
    let r1 := cs.drop 9
    let r2 :=
      match r1 with
      | c :: a :: b :: rest =>
        if (c = ' ' || c = '-') && isUC a && isUC b then rest else r1
      | _ => r1
    r2.dropWhile (fun c => c = ' ' || c = '-')
  else cs

/-- Embedding of the `remove_tags` regex substitution: each well-formed
    angle tag is replaced by its content after the optional leading spaces
    and cleartext/language marker, each well-formed bracket tag by its
    content; an opener without its closer is copied and scanning continues
    at the next character. -/
def removeTagsGo : Nat → Str → Str
  | 0, cs => cs
  | f + 1, [] => []
  | f + 1, c :: tl =>
    if c = '<' then
      match splitAtFirst '>' (markerEat (tl.dropWhile (fun x => x = ' '))) with
      | some (inner, rest) => inner ++ removeTagsGo f rest
      | none => c :: removeTagsGo f tl
    else if c = '[' then
      match splitAtFirst ']' tl with
      | some (inner, rest) => inner ++ removeTagsGo f rest
      | none => c :: removeTagsGo f tl
    else c :: removeTagsGo f tl

/-- Embedding of `remove_tags`. -/
def remove_tags (cs : Str) : Str := removeTagsGo (cs.length + 1) cs

/-- The dictionary of the longest-match property P3. -/
def d7 : TDict :=
  [("abc".toList, "X".toList), ("ab".toList, "Y".toList), ("a".toList, "f".toList),
   ("b".toList, "g".toList), ("bc".toList, "Q".toList)]

/-- The dictionary of the no-re-substitution property P5. -/
def d8 : TDict :=
  [("a".toList, "b".toList), ("c".toList, "b".toList), ("b".toList, "f".toList),
   ("d".toList, "b".toList), ("e".toList, "b".toList)]

/- ---------------- helper lemmas ---------------- -/

theorem splitAtFirst_eq {c : Char} :
    ∀ {cs a b : Str}, splitAtFirst c cs = some (a, b) → cs = a ++ c :: b ∧ c ∉ a := by
  intro cs
  induction cs with
  | nil => intro a b h; simp [splitAtFirst] at h
  | cons x xs ih =>
    intro a b h
    by_cases hx : x = c
    · simp only [splitAtFirst, if_pos hx, Option.some.injEq, Prod.mk.injEq] at h
      obtain ⟨ha, hb⟩ := h
      subst ha; subst hb; subst hx
      simp
    · simp only [splitAtFirst, if_neg hx, Option.map_eq_some'] at h
      obtain ⟨p, hp, hpa⟩ := h
      obtain ⟨ha, hb⟩ := Prod.mk.injEq .. ▸ hpa
      obtain ⟨h1, h2⟩ := ih (a := p.1) (b := p.2) (by simpa using hp)
      subst hb
      constructor
      · rw [← ha, h1]; simp
      · rw [← ha]
        simp only [List.mem_cons, not_or]
        exact ⟨fun hc => hx hc.symm, h2⟩

theorem splitAtFirst_none {c : Char} :
    ∀ {cs : Str}, splitAtFirst c cs = none ↔ c ∉ cs := by
  intro cs
  induction cs with
  | nil => simp [splitAtFirst]
  | cons x xs ih =>
    by_cases hx : x = c
    · simp [splitAtFirst, hx]
    · simp only [splitAtFirst, if_neg hx, Option.map_eq_none', ih, List.mem_cons, not_or]
      constructor
      · intro h; exact ⟨fun hc => hx hc.symm, h⟩
      · intro h; exact h.2

theorem splitAtFirst_pre {c : Char} :
    ∀ {mid : Str} (rest : Str), c ∉ mid →
      splitAtFirst c (mid ++ c :: rest) = some (mid, rest) := by
  intro mid
  induction mid with
  | nil => intro rest _; simp [splitAtFirst]
  | cons x xs ih =>
    intro rest h
    simp only [List.mem_cons, not_or] at h
    have hxc : ¬x = c := fun hc => h.1 hc.symm
    simp [splitAtFirst, hxc, ih rest h.2]

theorem protTagsGo_congr :
    ∀ (f g : Nat) (cs : Str), cs.length < f → cs.length < g →
      protTagsGo f cs = protTagsGo g cs := by
  intro f
  induction f with
  | zero => intro g cs hf; omega
  | succ f ih =>
    intro g cs hf hg
    cases g with
    | zero => omega
    | succ g =>
      cases cs with
      | nil => simp [protTagsGo]
      | cons c tl =>
        simp only [protTagsGo]
        by_cases hc : c = '<'
        · simp only [if_pos hc]
          cases hsp : splitAtFirst '>' tl with
          | none => rfl
          | some p =>
            obtain ⟨mid, rest⟩ := p
            have hlen : tl = mid ++ '>' :: rest := (splitAtFirst_eq hsp).1
            have : rest.length < tl.length := by subst hlen; simp; omega
            simp only [List.length_cons] at hf hg
            dsimp only
            rw [ih g rest (by omega) (by omega)]
        · simp only [if_neg hc]
          by_cases hc2 : c = '['
          · simp only [if_pos hc2]
            cases hsp : splitAtFirst ']' tl with
            | none => rfl
            | some p =>
              obtain ⟨mid, rest⟩ := p
              have hlen : tl = mid ++ ']' :: rest := (splitAtFirst_eq hsp).1
              have : rest.length < tl.length := by subst hlen; simp; omega
              simp only [List.length_cons] at hf hg
              dsimp only
              rw [ih g rest (by omega) (by omega)]
          · simp [if_neg hc2]

theorem protTags_nil : protTags [] = ([], []) := rfl

theorem protTagsGo_succ (f : Nat) (cs : Str) :
    protTagsGo (f + 1) cs =
      match cs with
      | [] => ([], [])
      | c :: tl =>
        if c = '<' then
          match splitAtFirst '>' tl with
          | some (mid, rest) =>
            ('<' :: (mid ++ '>' :: (protTagsGo f rest).1), (protTagsGo f rest).2)
          | none => ([], c :: tl)
        else if c = '[' then
          match splitAtFirst ']' tl with
          | some (mid, rest) =>
            ('[' :: (mid ++ ']' :: (protTagsGo f rest).1), (protTagsGo f rest).2)
          | none => ([], c :: tl)
        else ([], c :: tl) := rfl

theorem protTags_angle {tl mid rest : Str} (h : splitAtFirst '>' tl = some (mid, rest)) :
    protTags ('<' :: tl) = ('<' :: (mid ++ '>' :: (protTags rest).1), (protTags rest).2) := by
  have hlen : tl = mid ++ '>' :: rest := (splitAtFirst_eq h).1
  have hrl : rest.length < tl.length := by subst hlen; simp; omega
  simp only [protTags, List.length_cons]
  rw [protTagsGo_succ]
  simp only [if_pos rfl, h]
  rw [protTagsGo_congr (tl.length + 1) (rest.length + 1) rest (by omega) (by omega)]
  simp

theorem protTags_angle_none {tl : Str} (h : '>' ∉ tl) :
    protTags ('<' :: tl) = ([], '<' :: tl) := by
  simp only [protTags, List.length_cons]
  rw [protTagsGo_succ]
  simp [splitAtFirst_none.mpr h]

theorem protTags_sq {tl mid rest : Str} (h : splitAtFirst ']' tl = some (mid, rest)) :
    protTags ('[' :: tl) = ('[' :: (mid ++ ']' :: (protTags rest).1), (protTags rest).2) := by
  have hlen : tl = mid ++ ']' :: rest := (splitAtFirst_eq h).1
  have hrl : rest.length < tl.length := by subst hlen; simp; omega
  simp only [protTags, List.length_cons]
  rw [protTagsGo_succ]
  simp only [if_pos rfl, h]
  rw [protTagsGo_congr (tl.length + 1) (rest.length + 1) rest (by omega) (by omega)]
  simp

theorem protTags_sq_none {tl : Str} (h : ']' ∉ tl) :
    protTags ('[' :: tl) = ([], '[' :: tl) := by
  simp only [protTags, List.length_cons]
  rw [protTagsGo_succ]
  simp [splitAtFirst_none.mpr h]

theorem protTags_other {c : Char} {tl : Str} (h1 : c ≠ '<') (h2 : c ≠ '[') :
    protTags (c :: tl) = ([], c :: tl) := by
  simp only [protTags, List.length_cons]
  rw [protTagsGo_succ]
  simp [h1, h2]

theorem protTags_decomp : ∀ (cs : Str), (protTags cs).1 ++ (protTags cs).2 = cs := by
  have main : ∀ (n : Nat) (cs : Str), cs.length ≤ n →
      (protTags cs).1 ++ (protTags cs).2 = cs := by
    intro n
    induction n with
    | zero =>
      intro cs h
      have : cs = [] := List.length_eq_zero.mp (by omega)
      subst this; rfl
    | succ n ih =>
      intro cs h
      cases cs with
      | nil => rfl
      | cons c tl =>
        by_cases hc : c = '<'
        · subst hc
          cases hsp : splitAtFirst '>' tl with
          | none => rw [protTags_angle_none (splitAtFirst_none.mp hsp)]; rfl
          | some p =>
            obtain ⟨mid, rest⟩ := p
            have hlen : tl = mid ++ '>' :: rest := (splitAtFirst_eq hsp).1
            rw [protTags_angle hsp]
            have := ih rest (by subst hlen; simp at h ⊢; omega)
            simp only [List.cons_append, List.append_assoc, List.cons_append] at this ⊢
            rw [this, hlen]
        · by_cases hc2 : c = '['
          · subst hc2
            cases hsp : splitAtFirst ']' tl with
            | none => rw [protTags_sq_none (splitAtFirst_none.mp hsp)]; rfl
            | some p =>
              obtain ⟨mid, rest⟩ := p
              have hlen : tl = mid ++ ']' :: rest := (splitAtFirst_eq hsp).1
              rw [protTags_sq hsp]
              have := ih rest (by subst hlen; simp at h ⊢; omega)
              simp only [List.cons_append, List.append_assoc, List.cons_append] at this ⊢
              rw [this, hlen]
          · rw [protTags_other hc hc2]; rfl
  exact fun cs => main cs.length cs (le_refl _)

theorem comTail_decomp : ∀ (cs : Str), (comTail cs).1 ++ (comTail cs).2 = cs := by
  intro cs
  cases cs with
  | nil => rfl
  | cons c tl =>
    by_cases hc : c = '#'
    · simp [comTail, hc, List.takeWhile_append_dropWhile]
    · simp [comTail, hc]

theorem protRun_decomp (cs : Str) : (protRun cs).1 ++ (protRun cs).2 = cs := by
  simp only [protRun, List.append_assoc, comTail_decomp, protTags_decomp]

theorem comTail_comment (tl : Str) :
    comTail ('#' :: tl) =
      ('#' :: tl.takeWhile (fun x => x ≠ '\n'), tl.dropWhile (fun x => x ≠ '\n')) := by
  simp [comTail]

theorem comTail_other {c : Char} (tl : Str) (h : c ≠ '#') :
    comTail (c :: tl) = ([], c :: tl) := by
  simp [comTail, h]

theorem comTail_spec (cs : Str) : SpecProtRun (comTail cs).1 := by
  cases cs with
  | nil => exact SpecProtRun.nil
  | cons c tl =>
    by_cases hc : c = '#'
    · subst hc
      rw [comTail_comment]
      exact SpecProtRun.comment
        ⟨tl.takeWhile (fun x => x ≠ '\n'), rfl, fun hm => by
          have := List.mem_takeWhile_imp hm
          simp at this⟩
    · rw [comTail_other tl hc]
      exact SpecProtRun.nil

theorem protRun_spec : ∀ cs : Str, SpecProtRun (protRun cs).1 := by
  have main : ∀ (n : Nat) (cs : Str), cs.length ≤ n → SpecProtRun (protRun cs).1 := by
    intro n
    induction n with
    | zero =>
      intro cs h
      have : cs = [] := List.length_eq_zero.mp (by omega)
      subst this
      exact SpecProtRun.nil
    | succ n ih =>
      intro cs h
      cases cs with
      | nil => exact SpecProtRun.nil
      | cons c tl =>
        by_cases hc : c = '<'
        · subst hc
          cases hsp : splitAtFirst '>' tl with
          | none =>
            simp only [protRun, protTags_angle_none (splitAtFirst_none.mp hsp),
              List.nil_append]
            exact comTail_spec _
          | some p =>
            obtain ⟨mid, rest⟩ := p
            obtain ⟨hlen, hmem⟩ := splitAtFirst_eq hsp
            have hrec : SpecProtRun (protRun rest).1 :=
              ih rest (by subst hlen; simp at h ⊢; omega)
            simp only [protRun, protTags_angle hsp]
            have : '<' :: (mid ++ '>' :: (protTags rest).1) ++ (comTail (protTags rest).2).1 =
                ('<' :: (mid ++ ['>'])) ++ ((protTags rest).1 ++ (comTail (protTags rest).2).1) := by
              simp
            rw [this]
            exact SpecProtRun.tag (Or.inl ⟨mid, rfl, hmem⟩) hrec
        · by_cases hc2 : c = '['
          · subst hc2
            cases hsp : splitAtFirst ']' tl with
            | none =>
              simp only [protRun, protTags_sq_none (splitAtFirst_none.mp hsp)]
              exact comTail_spec _
            | some p =>
              obtain ⟨mid, rest⟩ := p
              obtain ⟨hlen, hmem⟩ := splitAtFirst_eq hsp
              have hrec : SpecProtRun (protRun rest).1 :=
                ih rest (by subst hlen; simp at h ⊢; omega)
              simp only [protRun, protTags_sq hsp]
              have : '[' :: (mid ++ ']' :: (protTags rest).1) ++ (comTail (protTags rest).2).1 =
                  ('[' :: (mid ++ [']'])) ++ ((protTags rest).1 ++ (comTail (protTags rest).2).1) := by
                simp
              rw [this]
              exact SpecProtRun.tag (Or.inr ⟨mid, rfl, hmem⟩) hrec
          · simp only [protRun, protTags_other hc hc2]
            exact comTail_spec _
  exact fun cs => main cs.length cs (le_refl _)

theorem tw_dw_len (cs : Str) :
    (cs.takeWhile notSpec).length + (cs.dropWhile notSpec).length = cs.length := by
  conv_rhs => rw [← List.takeWhile_append_dropWhile (p := notSpec) (l := cs)]
  rw [List.length_append]

theorem protRun_len (cs : Str) :
    (protRun cs).1.length + (protRun cs).2.length = cs.length := by
  conv_rhs => rw [← protRun_decomp cs]
  rw [List.length_append]

theorem dw_eq_of_tw_nil {cs : Str} (h : cs.takeWhile notSpec = []) :
    cs.dropWhile notSpec = cs := by
  conv_rhs => rw [← List.takeWhile_append_dropWhile (p := notSpec) (l := cs)]
  rw [h, List.nil_append]

theorem protRun2_lt {cs : Str}
    (h : ((cs.takeWhile notSpec).isEmpty &&
      (protRun (cs.dropWhile notSpec)).1.isEmpty) = false) :
    (protRun (cs.dropWhile notSpec)).2.length < cs.length := by
  have h1 := tw_dw_len cs
  have h2 := protRun_len (cs.dropWhile notSpec)
  rcases Bool.and_eq_false_iff.mp h with hf | hf
  · have : (cs.takeWhile notSpec) ≠ [] := by
      intro hnil; rw [hnil] at hf; simp at hf
    have : 0 < (cs.takeWhile notSpec).length := List.length_pos.mpr this
    omega
  · have : (protRun (cs.dropWhile notSpec)).1 ≠ [] := by
      intro hnil; rw [hnil] at hf; simp at hf
    have : 0 < (protRun (cs.dropWhile notSpec)).1.length := List.length_pos.mpr this
    omega

theorem translateGo_succ (d : TDict) (f : Nat) (cs : Str) :
    translateGo d (f + 1) cs =
      if (cs.takeWhile notSpec).isEmpty && (protRun (cs.dropWhile notSpec)).1.isEmpty then
        match cs with
        | [] => cipherSub d []
        | _ :: tl =>
          (cipherSub d []).bind fun a => (translateGo d f tl).bind fun b => some (a ++ b)
      else
        (cipherSub d (cs.takeWhile notSpec)).bind fun a =>
          (translateGo d f (protRun (cs.dropWhile notSpec)).2).bind fun b =>
            some (a ++ (protRun (cs.dropWhile notSpec)).1 ++ b) := rfl

theorem translateGo_congr (d : TDict) :
    ∀ (f g : Nat) (cs : Str), cs.length < f → cs.length < g →
      translateGo d f cs = translateGo d g cs := by
  intro f
  induction f with
  | zero => intro g cs hf; omega
  | succ f ih =>
    intro g cs hf hg
    cases g with
    | zero => omega
    | succ g =>
      rw [translateGo_succ, translateGo_succ]
      by_cases hc : ((cs.takeWhile notSpec).isEmpty &&
          (protRun (cs.dropWhile notSpec)).1.isEmpty) = true
      · rw [if_pos hc, if_pos hc]
        cases cs with
        | nil => rfl
        | cons c tl =>
          simp only [List.length_cons] at hf hg
          dsimp only
          rw [ih g tl (by omega) (by omega)]
      · rw [if_neg hc, if_neg hc]
        have hlt := protRun2_lt (Bool.eq_false_iff.mpr hc)
        rw [ih g _ (by omega) (by omega)]

theorem translate_step (d : TDict) (cs : Str) :
    translate d cs =
      if (cs.takeWhile notSpec).isEmpty && (protRun (cs.dropWhile notSpec)).1.isEmpty then
        match cs with
        | [] => cipherSub d []
        | _ :: tl =>
          (cipherSub d []).bind fun a => (translate d tl).bind fun b => some (a ++ b)
      else
        (cipherSub d (cs.takeWhile notSpec)).bind fun a =>
          (translate d (protRun (cs.dropWhile notSpec)).2).bind fun b =>
            some (a ++ (protRun (cs.dropWhile notSpec)).1 ++ b) := by
  show translateGo d (cs.length + 1) cs = _
  rw [translateGo_succ]
  by_cases hc : ((cs.takeWhile notSpec).isEmpty &&
      (protRun (cs.dropWhile notSpec)).1.isEmpty) = true
  · rw [if_pos hc, if_pos hc]
    cases cs with
    | nil => rfl
    | cons c tl => rfl
  · rw [if_neg hc, if_neg hc]
    have hlt := protRun2_lt (Bool.eq_false_iff.mpr hc)
    rw [translateGo_congr d cs.length ((protRun (cs.dropWhile notSpec)).2.length + 1) _
      (by omega) (by omega)]
    rfl

theorem segmentsGo_succ (f : Nat) (cs : Str) :
    segmentsGo (f + 1) cs =
      if (cs.takeWhile notSpec).isEmpty && (protRun (cs.dropWhile notSpec)).1.isEmpty then
        match cs with
        | [] => [([], [])]
        | _ :: tl => ([], []) :: segmentsGo f tl
      else
        (cs.takeWhile notSpec, (protRun (cs.dropWhile notSpec)).1) ::
          segmentsGo f (protRun (cs.dropWhile notSpec)).2 := rfl

theorem segmentsGo_congr :
    ∀ (f g : Nat) (cs : Str), cs.length < f → cs.length < g →
      segmentsGo f cs = segmentsGo g cs := by
  intro f
  induction f with
  | zero => intro g cs hf; omega
  | succ f ih =>
    intro g cs hf hg
    cases g with
    | zero => omega
    | succ g =>
      rw [segmentsGo_succ, segmentsGo_succ]
      by_cases hc : ((cs.takeWhile notSpec).isEmpty &&
          (protRun (cs.dropWhile notSpec)).1.isEmpty) = true
      · rw [if_pos hc, if_pos hc]
        cases cs with
        | nil => rfl
        | cons c tl =>
          simp only [List.length_cons] at hf hg
          dsimp only
          rw [ih g tl (by omega) (by omega)]
      · rw [if_neg hc, if_neg hc]
        have hlt := protRun2_lt (Bool.eq_false_iff.mpr hc)
        rw [ih g _ (by omega) (by omega)]

theorem segments_step (cs : Str) :
    segments cs =
      if (cs.takeWhile notSpec).isEmpty && (protRun (cs.dropWhile notSpec)).1.isEmpty then
        match cs with
        | [] => [([], [])]
        | _ :: tl => ([], []) :: segments tl
      else
        (cs.takeWhile notSpec, (protRun (cs.dropWhile notSpec)).1) ::
          segments (protRun (cs.dropWhile notSpec)).2 := by
  show segmentsGo (cs.length + 1) cs = _
  rw [segmentsGo_succ]
  by_cases hc : ((cs.takeWhile notSpec).isEmpty &&
      (protRun (cs.dropWhile notSpec)).1.isEmpty) = true
  · rw [if_pos hc, if_pos hc]
    cases cs with
    | nil => rfl
    | cons c tl => rfl
  · rw [if_neg hc, if_neg hc]
    have hlt := protRun2_lt (Bool.eq_false_iff.mpr hc)
    rw [segmentsGo_congr cs.length ((protRun (cs.dropWhile notSpec)).2.length + 1) _
      (by omega) (by omega)]
    rfl

theorem subSegs_cons (d : TDict) (m : Str × Str) (segs : List (Str × Str)) :
    subSegs d (m :: segs) =
      (cipherSub d m.1).bind fun a => (subSegs d segs).bind fun b => some (a ++ m.2 ++ b) :=
  rfl

theorem translate_eq_subSegs (d : TDict) : ∀ cs : Str, translate d cs = subSegs d (segments cs) := by
  have main : ∀ (n : Nat) (cs : Str), cs.length ≤ n →
      translate d cs = subSegs d (segments cs) := by
    intro n
    induction n with
    | zero =>
      intro cs h
      have : cs = [] := List.length_eq_zero.mp (by omega)
      subst this
      show cipherSub d [] = subSegs d [([], [])]
      rw [subSegs_cons]
      cases cipherSub d [] <;> simp [subSegs]
    | succ n ih =>
      intro cs h
      rw [translate_step, segments_step]
      by_cases hc : ((cs.takeWhile notSpec).isEmpty &&
          (protRun (cs.dropWhile notSpec)).1.isEmpty) = true
      · rw [if_pos hc, if_pos hc]
        cases cs with
        | nil =>
          rw [subSegs_cons]
          cases cipherSub d [] <;> simp [subSegs]
        | cons c tl =>
          rw [subSegs_cons]
          dsimp only
          rw [ih tl (by simp at h; omega)]
          cases cipherSub d [] <;> cases subSegs d (segments tl) <;> simp
      · rw [if_neg hc, if_neg hc]
        have hlt := protRun2_lt (Bool.eq_false_iff.mpr hc)
        rw [subSegs_cons, ih _ (by omega)]
  exact fun cs => main cs.length cs (le_refl _)

theorem segments_spec : ∀ (cs : Str), ∀ m ∈ segments cs, SpecProtRun m.2 := by
  have main : ∀ (n : Nat) (cs : Str), cs.length ≤ n → ∀ m ∈ segments cs, SpecProtRun m.2 := by
    intro n
    induction n with
    | zero =>
      intro cs h m hm
      have : cs = [] := List.length_eq_zero.mp (by omega)
      subst this
      have hseg : segments ([] : Str) = [([], [])] := rfl
      rw [hseg] at hm
      have : m = ([], []) := by simpa using hm
      subst this
      exact SpecProtRun.nil
    | succ n ih =>
      intro cs h m hm
      rw [segments_step] at hm
      by_cases hc : ((cs.takeWhile notSpec).isEmpty &&
          (protRun (cs.dropWhile notSpec)).1.isEmpty) = true
      · rw [if_pos hc] at hm
        cases cs with
        | nil =>
          have : m = ([], []) := by simpa using hm
          subst this
          exact SpecProtRun.nil
        | cons c tl =>
          simp only [List.mem_cons] at hm
          rcases hm with hm | hm
          · subst hm; exact SpecProtRun.nil
          · exact ih tl (by simp at h; omega) m hm
      · rw [if_neg hc] at hm
        have hlt := protRun2_lt (Bool.eq_false_iff.mpr hc)
        simp only [List.mem_cons] at hm
        rcases hm with hm | hm
        · subst hm; exact protRun_spec _
        · exact ih _ (by omega) m hm
  exact fun cs => main cs.length cs (le_refl _)

theorem pfx_append : ∀ {k cs : Str}, pfx k cs = true → k ++ cs.drop k.length = cs := by
  intro k
  induction k with
  | nil => intro cs _; simp
  | cons a as ih =>
    intro cs h
    cases cs with
    | nil => simp [pfx] at h
    | cons b bs =>
      simp only [pfx, Bool.and_eq_true, decide_eq_true_eq] at h
      obtain ⟨hab, hp⟩ := h
      subst hab
      simpa using ih hp

theorem pfx_length {k cs : Str} (h : pfx k cs = true) : k.length ≤ cs.length := by
  have := pfx_append h
  calc k.length ≤ k.length + (cs.drop k.length).length := by omega
  _ = cs.length := by rw [← List.length_append, this]

theorem firstAlt_mem : ∀ {alts : List Str} {cs k : Str},
    firstAlt alts cs = some k → k ∈ alts ∧ pfx k cs = true := by
  intro alts
  induction alts with
  | nil => intro cs k h; simp [firstAlt] at h
  | cons a as ih =>
    intro cs k h
    by_cases hp : pfx a cs = true
    · simp only [firstAlt, if_pos hp, Option.some.injEq] at h
      subst h
      exact ⟨List.mem_cons_self a as, hp⟩
    · simp only [firstAlt, if_neg hp] at h
      obtain ⟨hm, hpfx⟩ := ih h
      exact ⟨List.mem_cons_of_mem a hm, hpfx⟩

theorem firstAlt_nil_none {alts : List Str} (h : ∀ a ∈ alts, a ≠ []) :
    firstAlt alts [] = none := by
  induction alts with
  | nil => rfl
  | cons a as ih =>
    have ha : a ≠ [] := h a (List.mem_cons_self a as)
    have hp : pfx a [] = false := by
      cases a with
      | nil => exact absurd rfl ha
      | cons x xs => rfl
    simp only [firstAlt, hp]
    exact ih (fun b hb => h b (List.mem_cons_of_mem a hb))

theorem mem_insByLen {x y : Str} : ∀ {l : List Str}, y ∈ insByLen x l ↔ y = x ∨ y ∈ l := by
  intro l
  induction l with
  | nil => simp [insByLen]
  | cons a as ih =>
    by_cases hl : x.length < a.length
    · simp only [insByLen, if_pos hl, List.mem_cons, ih]
      tauto
    · simp only [insByLen, if_neg hl, List.mem_cons]

theorem mem_sortKeysDesc {k : Str} : ∀ {ks : List Str}, k ∈ sortKeysDesc ks ↔ k ∈ ks := by
  intro ks
  induction ks with
  | nil => simp [sortKeysDesc]
  | cons a as ih =>
    show k ∈ insByLen a (sortKeysDesc as) ↔ _
    rw [mem_insByLen]
    simp [ih]

theorem insByLen_length {x : Str} : ∀ {l : List Str}, (insByLen x l).length = l.length + 1 := by
  intro l
  induction l with
  | nil => rfl
  | cons a as ih =>
    by_cases hl : x.length < a.length
    · simp [insByLen, if_pos hl, ih]
    · simp [insByLen, if_neg hl]

theorem sortKeysDesc_length : ∀ {ks : List Str}, (sortKeysDesc ks).length = ks.length := by
  intro ks
  induction ks with
  | nil => rfl
  | cons a as ih =>
    show (insByLen a (sortKeysDesc as)).length = _
    rw [insByLen_length, ih]
    rfl

theorem alts0_of_ne {d : TDict} (h : d ≠ []) :
    alts0 d = sortKeysDesc (d.map Prod.fst) := by
  have hlen : (sortKeysDesc (d.map Prod.fst)).length = d.length := by
    rw [sortKeysDesc_length, List.length_map]
  have hne : (sortKeysDesc (d.map Prod.fst)).isEmpty = false := by
    rw [Bool.eq_false_iff]
    intro hemp
    have hnil := List.isEmpty_iff.mp hemp
    have : d.length = 0 := by rw [← hlen, hnil]; rfl
    exact h (List.length_eq_zero.mp this)
  simp [alts0, hne]

theorem lk_self : ∀ {d : TDict} {k : Str}, (∀ kv ∈ d, kv.2 = kv.1) →
    k ∈ d.map Prod.fst → lk d k = some k := by
  intro d
  induction d with
  | nil => intro k _ hm; simp at hm
  | cons kv d ih =>
    intro k hid hm
    by_cases hk : kv.1 = k
    · have : kv.2 = kv.1 := hid kv (List.mem_cons_self kv d)
      simp [lk, hk, this ▸ hk]
    · simp only [List.map_cons, List.mem_cons] at hm
      rcases hm with hm | hm

      · exact absurd hm.symm hk
      · simp only [lk, if_neg hk]
        exact ih (fun x hx => hid x (List.mem_cons_of_mem kv hx)) hm

theorem cipherSubGo_congr (d : TDict) (alts : List Str) :
    ∀ (f g : Nat) (cs : Str), cs.length < f → cs.length < g →
      cipherSubGo d alts f cs = cipherSubGo d alts g cs := by
  intro f
  induction f with
  | zero => intro g cs hf; omega
  | succ f ih =>
    intro g cs hf hg
    cases g with
    | zero => omega
    | succ g =>
      show cipherSubGo d alts (f + 1) cs = cipherSubGo d alts (g + 1) cs
      simp only [cipherSubGo]
      cases hfa : firstAlt alts cs with
      | none =>
        dsimp only
        cases cs with
        | nil => rfl
        | cons c tl =>
          dsimp only
          simp only [List.length_cons] at hf hg
          rw [ih g tl (by omega) (by omega)]
      | some k =>
        dsimp only
        cases hlk : lk d k with
        | none => rfl
        | some v =>
          dsimp only
          by_cases hk : k.isEmpty = true
          · simp only [if_pos hk]
            cases cs with
            | nil => rfl
            | cons c tl =>
              dsimp only
              simp only [List.length_cons] at hf hg
              rw [ih g tl (by omega) (by omega)]
          · simp only [if_neg hk]
            have hkne : k ≠ [] := by
              intro h0; rw [h0] at hk; simp at hk
            have hk1 : 0 < k.length := List.length_pos.mpr hkne
            have hkle : k.length ≤ cs.length := pfx_length (firstAlt_mem hfa).2
            have : (cs.drop k.length).length < cs.length := by
              rw [List.length_drop]; omega
            rw [ih g (cs.drop k.length) (by omega) (by omega)]

theorem cipherSub_step (d : TDict) (cs : Str) :
    cipherSub d cs =
      match firstAlt (alts0 d) cs with
      | some k =>
        match lk d k with
        | none => none
        | some v =>
          if k.isEmpty then
            match cs with
            | [] => some v
            | c :: tl => (cipherSub d tl).map (fun r => v ++ c :: r)
          else (cipherSub d (cs.drop k.length)).map (fun r => v ++ r)
      | none =>
        match cs with
        | [] => some []
        | c :: tl => (cipherSub d tl).map (fun r => c :: r) := by
  show cipherSubGo d (alts0 d) (cs.length + 1) cs = _
  simp only [cipherSubGo]
  cases hfa : firstAlt (alts0 d) cs with
  | none =>
    dsimp only
    cases cs with
    | nil => rfl
    | cons c tl => rfl
  | some k =>
    dsimp only
    cases hlk : lk d k with
    | none => rfl
    | some v =>
      dsimp only
      by_cases hk : k.isEmpty = true
      · simp only [if_pos hk]
        cases cs with
        | nil => rfl
        | cons c tl => rfl
      · simp only [if_neg hk]
        have hkne : k ≠ [] := by
          intro h0; rw [h0] at hk; simp at hk
        have hk1 : 0 < k.length := List.length_pos.mpr hkne
        have hkle : k.length ≤ cs.length := pfx_length (firstAlt_mem hfa).2
        have hlt : (cs.drop k.length).length < cs.length := by
          rw [List.length_drop]; omega
        rw [cipherSubGo_congr d (alts0 d) cs.length ((cs.drop k.length).length + 1) _
          (by omega) (by omega)]
        rfl

theorem cipherSub_empty (cs : Str) : cipherSub [] cs = none := by
  rw [cipherSub_step]
  have h1 : alts0 ([] : TDict) = [[]] := by rfl
  have h2 : firstAlt [[]] cs = some [] := by
    simp [firstAlt, pfx]
  rw [h1, h2]
  rfl

theorem cipherSub_id {d : TDict} (hne : d ≠ []) (hid : ∀ kv ∈ d, kv.2 = kv.1) :
    ∀ cs : Str, cipherSub d cs = some cs := by
  have main : ∀ (n : Nat) (cs : Str), cs.length ≤ n → cipherSub d cs = some cs := by
    intro n
    induction n with
    | zero =>
      intro cs h
      have hcs : cs = [] := List.length_eq_zero.mp (by omega)
      subst hcs
      rw [cipherSub_step]
      cases hfa : firstAlt (alts0 d) [] with
      | none => rfl
      | some k =>
        dsimp only
        obtain ⟨hmem, hpfx⟩ := firstAlt_mem hfa
        have hk : k = [] := by
          cases k with
          | nil => rfl
          | cons x xs => simp [pfx] at hpfx
        subst hk
        have hkeys : [] ∈ d.map Prod.fst := by
          rw [alts0_of_ne hne] at hmem
          exact mem_sortKeysDesc.mp hmem
        rw [lk_self hid hkeys]
        rfl
    | succ n ih =>
      intro cs h
      rw [cipherSub_step]
      cases hfa : firstAlt (alts0 d) cs with
      | none =>
        dsimp only
        cases cs with
        | nil => rfl
        | cons c tl =>
          dsimp only
          have := ih tl (by simp at h; omega)
          rw [this]
          rfl
      | some k =>
        dsimp only
        obtain ⟨hmem, hpfx⟩ := firstAlt_mem hfa
        have hkeys : k ∈ d.map Prod.fst := by
          rw [alts0_of_ne hne] at hmem
          exact mem_sortKeysDesc.mp hmem
        rw [lk_self hid hkeys]
        dsimp only
        by_cases hk : k.isEmpty = true
        · have hknil : k = [] := by
            cases k with
            | nil => rfl
            | cons x xs => simp at hk
          subst hknil
          try simp only [if_pos rfl]
          cases cs with
          | nil => rfl
          | cons c tl =>
            dsimp only
            have := ih tl (by simp at h; omega)
            rw [this]
            rfl
        · simp only [if_neg hk]
          have hkne : k ≠ [] := by
            intro h0; rw [h0] at hk; simp at hk
          have hk1 : 0 < k.length := List.length_pos.mpr hkne
          have hkle : k.length ≤ cs.length := pfx_length hpfx
          have := ih (cs.drop k.length) (by rw [List.length_drop]; omega)
          rw [this]
          simp [pfx_append hpfx]
  exact fun cs => main cs.length cs (le_refl _)

theorem cipherSub_nil_ne {d : TDict} (hne : d ≠ []) (hkeys : ∀ kv ∈ d, kv.1 ≠ []) :
    cipherSub d [] = some [] := by
  rw [cipherSub_step]
  have halts : ∀ a ∈ alts0 d, a ≠ [] := by
    intro a ha
    rw [alts0_of_ne hne] at ha
    have := mem_sortKeysDesc.mp ha
    obtain ⟨kv, hkv, hfst⟩ := List.mem_map.mp this
    exact hfst ▸ hkeys kv hkv
  rw [firstAlt_nil_none halts]

theorem closedOk_suffix {cs t : Str} (h : closedOk cs = true) (hs : t <:+ cs) :
    closedOk t = true := by
  rw [closedOk, List.all_eq_true] at h ⊢
  intro x hx
  exact h x ((List.mem_tails _ _).mpr (((List.mem_tails _ _).mp hx).trans hs))

theorem closedOk_angle {tl : Str} (h : closedOk ('<' :: tl) = true) : '>' ∈ tl := by
  rw [closedOk, List.all_eq_true] at h
  have := h ('<' :: tl) ((List.mem_tails _ _).mpr (List.suffix_refl _))
  exact of_decide_eq_true this

theorem closedOk_sq {tl : Str} (h : closedOk ('[' :: tl) = true) : ']' ∈ tl := by
  rw [closedOk, List.all_eq_true] at h
  have := h ('[' :: tl) ((List.mem_tails _ _).mpr (List.suffix_refl _))
  exact of_decide_eq_true this

theorem notSpec_false {c : Char} (h : notSpec c = false) :
    c = '<' ∨ c = '[' ∨ c = '#' := by
  simp only [notSpec, Bool.not_eq_false', Bool.or_eq_true, decide_eq_true_eq] at h
  tauto

theorem empty_match_impossible {c : Char} {tl : Str} (hcl : closedOk (c :: tl) = true) :
    (((c :: tl).takeWhile notSpec).isEmpty &&
      (protRun ((c :: tl).dropWhile notSpec)).1.isEmpty) = false := by
  by_cases hns : notSpec c = true
  · simp [List.takeWhile_cons, hns]
  · have hns' : notSpec c = false := Bool.eq_false_iff.mpr hns
    have htw : (c :: tl).takeWhile notSpec = [] := by
      simp [List.takeWhile_cons, hns']
    have hdw : (c :: tl).dropWhile notSpec = c :: tl := dw_eq_of_tw_nil htw
    rw [htw, hdw]
    rcases notSpec_false hns' with hc | hc | hc
    · subst hc
      have hmem := closedOk_angle hcl
      cases hsp : splitAtFirst '>' tl with
      | none => exact absurd hmem (splitAtFirst_none.mp hsp)
      | some p =>
        obtain ⟨mid, rest⟩ := p
        simp [protRun, protTags_angle hsp]
    · subst hc
      have hmem := closedOk_sq hcl
      cases hsp : splitAtFirst ']' tl with
      | none => exact absurd hmem (splitAtFirst_none.mp hsp)
      | some p =>
        obtain ⟨mid, rest⟩ := p
        simp [protRun, protTags_sq hsp]
    · subst hc
      have h1 : protTags ('#' :: tl) = ([], '#' :: tl) :=
        protTags_other (by decide) (by decide)
      simp [protRun, h1, comTail_comment]

theorem protRun2_suffix (cs : Str) : (protRun (cs.dropWhile notSpec)).2 <:+ cs :=
  ⟨cs.takeWhile notSpec ++ (protRun (cs.dropWhile notSpec)).1, by
    rw [List.append_assoc, protRun_decomp, List.takeWhile_append_dropWhile]⟩

theorem segments_join_of_closed :
    ∀ cs : Str, closedOk cs = true →
      ((segments cs).map (fun m => m.1 ++ m.2)).flatten = cs := by
  have main : ∀ (n : Nat) (cs : Str), cs.length ≤ n → closedOk cs = true →
      ((segments cs).map (fun m => m.1 ++ m.2)).flatten = cs := by
    intro n
    induction n with
    | zero =>
      intro cs h _
      have : cs = [] := List.length_eq_zero.mp (by omega)
      subst this
      rfl
    | succ n ih =>
      intro cs h hcl
      rw [segments_step]
      cases cs with
      | nil => rfl
      | cons c tl =>
        rw [if_neg (by rw [empty_match_impossible hcl]; simp)]
        simp only [List.map_cons, List.flatten_cons]
        rw [ih _ (by
            have h3 := protRun2_lt (empty_match_impossible hcl)
            simp only [List.length_cons] at h3 h ⊢
            omega)
          (closedOk_suffix hcl (protRun2_suffix (c :: tl)))]
        rw [List.append_assoc, protRun_decomp, List.takeWhile_append_dropWhile]
  exact fun cs => main cs.length cs (le_refl _)

theorem translate_id_of_closed {d : TDict} (hne : d ≠ [])
    (hid : ∀ kv ∈ d, kv.2 = kv.1) :
    ∀ cs : Str, closedOk cs = true → translate d cs = some cs := by
  have main : ∀ (n : Nat) (cs : Str), cs.length ≤ n → closedOk cs = true →
      translate d cs = some cs := by
    intro n
    induction n with
    | zero =>
      intro cs h _
      have : cs = [] := List.length_eq_zero.mp (by omega)
      subst this
      exact cipherSub_id hne hid []
    | succ n ih =>
      intro cs h hcl
      rw [translate_step]
      cases cs with
      | nil => exact cipherSub_id hne hid []
      | cons c tl =>
        rw [if_neg (by rw [empty_match_impossible hcl]; simp)]
        rw [cipherSub_id hne hid]
        rw [ih _ (by
            have h3 := protRun2_lt (empty_match_impossible hcl)
            simp only [List.length_cons] at h3 h ⊢
            omega)
          (closedOk_suffix hcl (protRun2_suffix (c :: tl)))]
        show some _ = _
        rw [List.append_assoc, protRun_decomp, List.takeWhile_append_dropWhile]
  exact fun cs => main cs.length cs (le_refl _)

theorem protRun_angle {mid : Str} (rest : Str) (h : '>' ∉ mid) :
    protRun ('<' :: (mid ++ '>' :: rest)) =
      ('<' :: (mid ++ '>' :: (protRun rest).1), (protRun rest).2) := by
  have hsp := splitAtFirst_pre rest h
  simp only [protRun, protTags_angle hsp]
  simp

theorem protRun_sq {mid : Str} (rest : Str) (h : ']' ∉ mid) :
    protRun ('[' :: (mid ++ ']' :: rest)) =
      ('[' :: (mid ++ ']' :: (protRun rest).1), (protRun rest).2) := by
  have hsp := splitAtFirst_pre rest h
  simp only [protRun, protTags_sq hsp]
  simp

theorem protRun_angle_none {tl : Str} (h : '>' ∉ tl) :
    protRun ('<' :: tl) = ([], '<' :: tl) := by
  have hct : comTail ('<' :: tl) = ([], '<' :: tl) := comTail_other tl (by decide)
  simp [protRun, protTags_angle_none h, hct]

theorem protRun_sq_none {tl : Str} (h : ']' ∉ tl) :
    protRun ('[' :: tl) = ([], '[' :: tl) := by
  have hct : comTail ('[' :: tl) = ([], '[' :: tl) := comTail_other tl (by decide)
  simp [protRun, protTags_sq_none h, hct]

theorem dinsert_ne_nil (d : TDict) (k v : Str) : dinsert d k v ≠ [] := by
  unfold dinsert
  by_cases hany : d.any (fun kv => kv.1 = k) = true
  · rw [if_pos hany]
    intro hnil
    have hd : d = [] := by
      cases d with
      | nil => rfl
      | cons x xs => simp at hnil
    subst hd
    simp at hany
  · rw [if_neg hany]
    simp

theorem procLine_skip {d : TDict} {line : Str}
    (h : (line.contains '/' && line.head? != some '#') = false) :
    procLine d line = .ok d := by
  unfold procLine
  rw [if_neg (by simpa using h)]

theorem procLine_valid {d : TDict} {line k v : Str}
    (hc : (line.contains '/' && line.head? != some '#') = true)
    (hsp : splitOn '/' (line.takeWhile (fun c => c ≠ '#')) = [k, v]) :
    procLine d line = .ok (dinsert d (pyStrip k) (pyStrip v)) := by
  unfold procLine
  rw [if_pos (by simpa using hc), hsp]

theorem foldl_pairs_ok :
    ∀ (lines : List Str) (d0 : TDict), (∀ l ∈ lines, lineBad l = false) →
      ∃ d1, List.foldlM procLine d0 lines = .ok d1 ∧
        (d1 = [] ↔ (d0 = [] ∧ ∀ l ∈ lines, lineValid l = false)) := by
  intro lines
  induction lines with
  | nil =>
    intro d0 _
    exact ⟨d0, rfl, by simp⟩
  | cons l ls ih =>
    intro d0 hbad
    have hbl : lineBad l = false := hbad l (List.mem_cons_self _ _)
    by_cases hc : (l.contains '/' && l.head? != some '#') = true
    · have hlen : (splitOn '/' (l.takeWhile (fun c => c ≠ '#'))).length = 2 := by
        by_contra hne
        have : lineBad l = true := by
          simp only [lineBad]
          rw [hc]
          simp only [Bool.true_and, decide_eq_true_eq]
          exact hne
        rw [this] at hbl
        cases hbl
      obtain ⟨k, v, hkv⟩ := List.length_eq_two.mp hlen
      rw [List.foldlM_cons, procLine_valid hc hkv]
      obtain ⟨d1, hf, hiff⟩ :=
        ih (dinsert d0 (pyStrip k) (pyStrip v))
          (fun x hx => hbad x (List.mem_cons_of_mem _ hx))
      refine ⟨d1, hf, ?_⟩
      rw [hiff]
      have hval : lineValid l = true := by
        simp only [lineValid]
        rw [hc]
        simp only [Bool.true_and, decide_eq_true_eq]
        exact hlen
      constructor
      · intro hh
        exact absurd hh.1 (dinsert_ne_nil _ _ _)
      · intro hh
        have := hh.2 l (List.mem_cons_self _ _)
        rw [hval] at this
        cases this
    · have hcf : (l.contains '/' && l.head? != some '#') = false := Bool.eq_false_iff.mpr hc
      rw [List.foldlM_cons, procLine_skip hcf]
      obtain ⟨d1, hf, hiff⟩ := ih d0 (fun x hx => hbad x (List.mem_cons_of_mem _ hx))
      refine ⟨d1, hf, ?_⟩
      rw [hiff]
      have hval : lineValid l = false := by
        simp only [lineValid]
        rw [hcf]
        rfl
      constructor
      · rintro ⟨h0, hall⟩
        refine ⟨h0, fun x hx => ?_⟩
        rcases List.mem_cons.mp hx with hx | hx
        · subst hx; exact hval
        · exact hall x hx
      · rintro ⟨h0, hall⟩
        exact ⟨h0, fun x hx => hall x (List.mem_cons_of_mem _ hx)⟩

theorem get_dictionary_iff {look : Str → Option Nat} {raw txt : Str}
    (hu : unescape look raw = .ok txt)
    (hbad : ∀ l ∈ splitlines txt, lineBad l = false) :
    (get_dictionary look raw false = .error (.noPairs noPairsMessage) ↔
      ∀ l ∈ splitlines txt, lineValid l = false) := by
  unfold get_dictionary
  rw [hu]
  dsimp only
  obtain ⟨d1, hf, hiff⟩ := foldl_pairs_ok (splitlines txt) [] hbad
  rw [hf]
  dsimp only
  by_cases hd : d1 = []
  · subst hd
    constructor
    · intro _
      exact (hiff.mp rfl).2
    · intro _
      rfl
  · have hne : d1.isEmpty = false := by
      rw [Bool.eq_false_iff]
      intro hemp
      exact hd (List.isEmpty_iff.mp hemp)
    rw [if_neg (by simp [hne])]
    constructor
    · intro hcontra
      cases hcontra
    · intro hall
      exact absurd (hiff.mpr ⟨rfl, hall⟩) hd

theorem readHex_suffix :
    ∀ (n acc : Nat) (r : Str) (v : Nat) (r2 : Str),
      readHex n acc r = some (v, r2) → r2 <:+ r := by
  intro n
  induction n with
  | zero =>
    intro acc r v r2 h
    simp only [readHex, Option.some.injEq, Prod.mk.injEq] at h
    rw [← h.2]
  | succ n ih =>
    intro acc r v r2 h
    cases r with
    | nil => simp [readHex] at h
    | cons c rest =>
      simp only [readHex] at h
      cases hv : hexVal c with
      | none => rw [hv] at h; simp at h
      | some w =>
        rw [hv] at h
        exact (ih _ rest v r2 h).trans ⟨[c], rfl⟩

theorem tails_subset {t cs : Str} (h : t <:+ cs) : ∀ x ∈ t.tails, x ∈ cs.tails :=
  fun x hx => (List.mem_tails _ _).mpr (((List.mem_tails _ _).mp hx).trans h)

theorem self_mem_tails (cs : Str) : cs ∈ cs.tails :=
  (List.mem_tails _ _).mpr (List.suffix_refl _)

theorem unescapeGo_ok (look : Str → Option Nat) :
    ∀ (f : Nat) (cs : Str), cs.length < f →
      (∀ t ∈ cs.tails, badU t = false ∧ badN look t = false) →
      ∃ out, unescapeGo look f cs = .ok out := by
  intro f
  induction f with
  | zero => intro cs hf; omega
  | succ f ih =>
    intro cs hf hgood
    cases cs with
    | nil => exact ⟨[], rfl⟩
    | cons c1 cs1 =>
      simp only [List.length_cons] at hf
      simp only [unescapeGo]
      by_cases hc1 : c1 = '\\'
      · rw [if_pos hc1]
        cases cs1 with
        | nil => exact ⟨['\\'], rfl⟩
        | cons c2 cs2 =>
          dsimp only
          simp only [List.length_cons] at hf
          have hsub1 : (c2 :: cs2) <:+ c1 :: c2 :: cs2 := ⟨[c1], rfl⟩
          have hsub2 : cs2 <:+ c1 :: c2 :: cs2 := ⟨[c1, c2], rfl⟩
          have hrec1 : ∃ out, unescapeGo look f (c2 :: cs2) = .ok out :=
            ih _ (by simp only [List.length_cons]; omega)
              (fun t ht => hgood t (tails_subset hsub1 t ht))
          by_cases hu : c2 = 'u'
          · rw [if_pos hu]
            cases hr : readHex 4 0 cs2 with
            | none =>
              dsimp only
              obtain ⟨out, hout⟩ := hrec1
              rw [hout]
              exact ⟨'\\' :: out, rfl⟩
            | some p =>
              obtain ⟨v, r⟩ := p
              dsimp only
              have hsuf : r <:+ cs2 := readHex_suffix 4 0 cs2 v r hr
              have hrl : r.length ≤ cs2.length := hsuf.length_le
              obtain ⟨out, hout⟩ :=
                ih r (by omega) (fun t ht => hgood t (tails_subset (hsuf.trans hsub2) t ht))
              rw [hout]
              exact ⟨Char.ofNat v :: out, rfl⟩
          · rw [if_neg hu]
            by_cases hU : c2 = 'U'
            · rw [if_pos hU]
              cases hr : readHex 8 0 cs2 with
              | none =>
                dsimp only
                obtain ⟨out, hout⟩ := hrec1
                rw [hout]
                exact ⟨'\\' :: out, rfl⟩
              | some p =>
                obtain ⟨v, r⟩ := p
                dsimp only
                by_cases hv : v ≤ 1114111
                · rw [if_pos hv]
                  have hsuf : r <:+ cs2 := readHex_suffix 8 0 cs2 v r hr
                  have hrl : r.length ≤ cs2.length := hsuf.length_le
                  obtain ⟨out, hout⟩ :=
                    ih r (by omega) (fun t ht => hgood t (tails_subset (hsuf.trans hsub2) t ht))
                  rw [hout]
                  exact ⟨Char.ofNat v :: out, rfl⟩
                · exfalso
                  have hbad : badU (c1 :: c2 :: cs2) = true := by
                    subst hc1; subst hU
                    simp only [badU, hr]
                    simp
                    omega
                  have := (hgood _ (self_mem_tails _)).1
                  rw [hbad] at this
                  cases this
            · rw [if_neg hU]
              by_cases hN : c2 = 'N'
              · rw [if_pos hN]
                cases cs2 with
                | nil =>
                  obtain ⟨out, hout⟩ := hrec1
                  rw [hout]
                  exact ⟨'\\' :: out, rfl⟩
                | cons c3 cs3 =>
                  dsimp only
                  simp only [List.length_cons] at hf
                  by_cases hbr : c3 = '\x7b'
                  · rw [if_pos hbr]
                    cases hsp : splitAtFirst '\x7d' cs3 with
                    | none =>
                      dsimp only
                      obtain ⟨out, hout⟩ := hrec1
                      rw [hout]
                      exact ⟨'\\' :: out, rfl⟩
                    | some p =>
                      obtain ⟨name, r⟩ := p
                      dsimp only
                      by_cases hnm : name.isEmpty = true
                      · rw [if_pos hnm]
                        obtain ⟨out, hout⟩ := hrec1
                        rw [hout]
                        exact ⟨'\\' :: out, rfl⟩
                      · rw [if_neg hnm]
                        cases hlook : look name with
                        | none =>
                          dsimp only
                          exfalso
                          have hbad : badN look (c1 :: c2 :: c3 :: cs3) = true := by
                            subst hc1; subst hN; subst hbr
                            simp only [badN, hsp]
                            simp [hlook, hnm]
                          have := (hgood _ (self_mem_tails _)).2
                          rw [hbad] at this
                          cases this
                        | some v =>
                          dsimp only
                          obtain ⟨hdec, _⟩ := splitAtFirst_eq hsp
                          have hsuf : r <:+ cs3 := ⟨name ++ ['\x7d'], by rw [hdec]; simp⟩
                          have hrl : r.length ≤ cs3.length := hsuf.length_le
                          have hsub3 : cs3 <:+ c1 :: c2 :: c3 :: cs3 := ⟨[c1, c2, c3], rfl⟩
                          obtain ⟨out, hout⟩ :=
                            ih r (by omega)
                              (fun t ht => hgood t (tails_subset (hsuf.trans hsub3) t ht))
                          rw [hout]
                          exact ⟨Char.ofNat v :: out, rfl⟩
                  · rw [if_neg hbr]
                    obtain ⟨out, hout⟩ := hrec1
                    rw [hout]
                    exact ⟨'\\' :: out, rfl⟩
              · rw [if_neg hN]
                obtain ⟨out, hout⟩ := hrec1
                rw [hout]
                exact ⟨'\\' :: out, rfl⟩
      · rw [if_neg hc1]
        obtain ⟨out, hout⟩ :=
          ih cs1 (by omega) (fun t ht => hgood t (tails_subset ⟨[c1], rfl⟩ t ht))
        rw [hout]
        exact ⟨c1 :: out, rfl⟩

theorem perm_all_d7 :
    ∀ d ∈ d7.permutations', translate d "abcabc".toList = some "XX".toList := by
  decide

theorem translate_drop_angle {d : TDict} {tl : Str} (hne : d ≠ [])
    (hkeys : ∀ kv ∈ d, kv.1 ≠ []) (h : '>' ∉ tl) :
    translate d ('<' :: tl) = translate d tl := by
  rw [translate_step]
  have htw : ('<' :: tl).takeWhile notSpec = [] := by
    simp [List.takeWhile_cons, notSpec]
  have hdw : ('<' :: tl).dropWhile notSpec = '<' :: tl := dw_eq_of_tw_nil htw
  rw [if_pos (by rw [htw, hdw, protRun_angle_none h]; rfl)]
  dsimp only
  rw [cipherSub_nil_ne hne hkeys]
  cases translate d tl <;> simp

/- ---------------- the claims ---------------- -/

/-- C1 (protected-region invariance): for every document and every non-empty
    dictionary of literally-interpreted keys, the output of `translate` is
    the concatenation, over the segmentation's spans, of the substituted
    translatable text followed by the protected text verbatim — protected
    content is never passed to the substitution engine — and every protected
    span is a run of well-formed tags with an optional trailing comment;
    concretely, a `#` inside a closed bracket tag is tag content, not a
    comment start, and is left unchanged. -/
theorem c1_protected_region_invariance :
    (∀ (d : TDict) (cs : Str), d ≠ [] → (∀ kv ∈ d, litKey kv.1 = true) →
      translate d cs = subSegs d (segments cs) ∧ ∀ m ∈ segments cs, SpecProtRun m.2) ∧
    translate [("a".toList, "b".toList)] "[a#a]a".toList = some "[a#a]b".toList :=
  ⟨fun d cs _ _ => ⟨translate_eq_subSegs d cs, segments_spec cs⟩, by decide⟩

/-- C1 witness: the invariance theorem applied to the dictionary a→b and the
    document x[y]. -/
theorem c1_witness :
    translate [("a".toList, "b".toList)] "x[y]".toList =
        subSegs [("a".toList, "b".toList)] (segments "x[y]".toList) ∧
      ∀ m ∈ segments "x[y]".toList, SpecProtRun m.2 :=
  c1_protected_region_invariance.1 [("a".toList, "b".toList)] "x[y]".toList
    (by decide) (by decide)

/-- C2 counterexample: on the one-character document `<` (an unclosed
    opener) the segmentation's spans concatenate to the empty string, not to
    the document, and `translate` with the identity dictionary a→a returns
    the empty string: the claimed round trip fails. -/
theorem c2_round_trip_counterexample :
    ((segments ['<']).map (fun m => m.1 ++ m.2)).flatten = ([] : Str) ∧
      translate [("a".toList, "a".toList)] ['<'] = some [] ∧ (['<'] : Str) ≠ [] := by
  decide

/-- C2 (round-trip segmentation), amended: for every document in which each
    `<` is followed by a later `>` and each `[` by a later `]`, the
    segmentation's raw spans concatenate back to the document, and
    `translate` with any non-empty identity dictionary of literal keys
    returns the document unchanged (unclosed openers, by contrast, are
    dropped from the output). -/
theorem c2_round_trip_amended :
    ∀ (d : TDict) (cs : Str), d ≠ [] → (∀ kv ∈ d, kv.2 = kv.1) →
      (∀ kv ∈ d, litKey kv.1 = true) → closedOk cs = true →
      ((segments cs).map (fun m => m.1 ++ m.2)).flatten = cs ∧ translate d cs = some cs :=
  fun _ cs hne hid _ hcl =>
    ⟨segments_join_of_closed cs hcl, translate_id_of_closed hne hid cs hcl⟩

/-- C2 witness: the amended round trip applied to the identity dictionary
    a→a and the document a[b]. -/
theorem c2_witness :
    ((segments "a[b]".toList).map (fun m => m.1 ++ m.2)).flatten = "a[b]".toList ∧
      translate [("a".toList, "a".toList)] "a[b]".toList = some "a[b]".toList :=
  c2_round_trip_amended [("a".toList, "a".toList)] "a[b]".toList
    (by decide) (by decide) (by decide) (by decide)

/-- C3 counterexample: a tag whose closing character appears only on a later
    line IS one protected span (the key a inside `<a\nb>` is not
    substituted), and an unclosed tag does not revert whole to translatable
    text: its opening `<` is dropped from the output while the rest is
    substituted. -/
theorem c3_tag_closure_counterexample :
    translate [("a".toList, "X".toList)] "<a\nb>c".toList = some "<a\nb>c".toList ∧
      translate [("a".toList, "X".toList)] "<a".toList = some "X".toList := by
  decide

/-- C3 (tag closure policy), amended: a bracket or angle tag is a protected
    span iff its closing character appears anywhere later in the document —
    the tag extends to the first closer, which may be on a later line; an
    opener with no closer matches no protected span, its character is
    dropped by `translate` and scanning resumes with the following text,
    which remains translatable. -/
theorem c3_tag_closure_amended :
    (∀ (mid rest : Str), '>' ∉ mid →
        protRun ('<' :: (mid ++ '>' :: rest)) =
          ('<' :: (mid ++ '>' :: (protRun rest).1), (protRun rest).2)) ∧
    (∀ (mid rest : Str), ']' ∉ mid →
        protRun ('[' :: (mid ++ ']' :: rest)) =
          ('[' :: (mid ++ ']' :: (protRun rest).1), (protRun rest).2)) ∧
    (∀ tl : Str, '>' ∉ tl → protRun ('<' :: tl) = ([], '<' :: tl)) ∧
    (∀ tl : Str, ']' ∉ tl → protRun ('[' :: tl) = ([], '[' :: tl)) ∧
    (∀ (d : TDict) (tl : Str), d ≠ [] → (∀ kv ∈ d, kv.1 ≠ []) → '>' ∉ tl →
        translate d ('<' :: tl) = translate d tl) :=
  ⟨fun _ rest h => protRun_angle rest h,
   fun _ rest h => protRun_sq rest h,
   fun _ h => protRun_angle_none h,
   fun _ h => protRun_sq_none h,
   fun _ _ hne hk h => translate_drop_angle hne hk h⟩

/-- C3 witness: the amended closure policy applied to a tag containing a
    newline and to a dropped unclosed opener. -/
theorem c3_witness :
    protRun ('<' :: (['a', '\n', 'b'] ++ '>' :: ['c'])) =
        ('<' :: (['a', '\n', 'b'] ++ '>' :: (protRun ['c']).1), (protRun ['c']).2) ∧
      translate [("x".toList, "y".toList)] ('<' :: "ab".toList) =
        translate [("x".toList, "y".toList)] "ab".toList :=
  ⟨c3_tag_closure_amended.1 ['a', '\n', 'b'] ['c'] (by decide),
   c3_tag_closure_amended.2.2.2.2 [("x".toList, "y".toList)] "ab".toList
     (by decide) (by decide) (by decide)⟩

/-- C5 counterexample: the input `a/b\nc/d/e` contains the valid key/value
    line `a/b`, yet `get_dictionary` raises the tuple-unpacking ValueError
    on the line `c/d/e` (two delimiters outside a comment), so it is not
    true that an input with a valid line raises no error at all. -/
theorem c5_no_pairs_counterexample :
    get_dictionary noNames "a/b\nc/d/e".toList false = .error .unpack ∧
      lineValid "a/b".toList = true := by
  decide

/-- C5 (dictionary-parser failure iff no valid pairs), amended: provided no
    line of the unescaped text triggers the unpacking error (a non-comment
    line whose pre-comment part does not split at `/` into exactly two
    parts), `get_dictionary` raises the "no key-value pairs found" error —
    whose message contains the delimiter `/` and the expected format sample
    — iff no line yields a valid pair; in particular the spec's instance
    raises exactly that error. -/
theorem c5_no_pairs_iff :
    ∀ (look : Str → Option Nat) (raw txt : Str), unescape look raw = .ok txt →
      (∀ l ∈ splitlines txt, lineBad l = false) →
      ((get_dictionary look raw false = .error (.noPairs noPairsMessage) ↔
          ∀ l ∈ splitlines txt, lineValid l = false) ∧
        get_dictionary noNames "#a/b\ncccc\ne|f\ng:h".toList false =
          .error (.noPairs noPairsMessage) ∧
        '/' ∈ noPairsMessage ∧
        "a/b\nc/d".toList <:+: noPairsMessage) :=
  fun _ _ _ hu hbad => ⟨get_dictionary_iff hu hbad, by decide, by decide, by decide⟩

/-- C5 witness: the amended iff applied to the dictionary text `a/b`. -/
theorem c5_witness :
    ((get_dictionary noNames "a/b".toList false = .error (.noPairs noPairsMessage) ↔
        ∀ l ∈ splitlines "a/b".toList, lineValid l = false) ∧
      get_dictionary noNames "#a/b\ncccc\ne|f\ng:h".toList false =
        .error (.noPairs noPairsMessage) ∧
      '/' ∈ noPairsMessage ∧
      "a/b\nc/d".toList <:+: noPairsMessage) :=
  c5_no_pairs_iff noNames "a/b".toList "a/b".toList rfl (by decide)

/-- C6 counterexample: the malformed escape `\u12` (two hex digits instead
    of four) does not match the escape pattern; the unescaping step raises
    no error and leaves it in place as literal text, contradicting the
    claim that malformed escapes surface an error. -/
theorem c6_escape_counterexample :
    unescape noNames "\\u12/x".toList = .ok "\\u12/x".toList := rfl

/-- C6 (malformed-escape error surfacing), amended: text not matching the
    well-formed escape patterns is copied through literally with no error;
    the unescaping step can only raise on a well-formed `\U` escape whose
    eight hex digits exceed 0x10FFFF or a well-formed `\N` escape naming an
    unknown character — if no suffix of the text begins such an escape,
    unescaping succeeds. -/
theorem c6_escape_errors :
    ∀ (look : Str → Option Nat) (cs : Str),
      (∀ t ∈ cs.tails, badU t = false ∧ badN look t = false) →
      ((∃ out, unescape look cs = .ok out) ∧
        unescape look "\\u12/x".toList = .ok "\\u12/x".toList) :=
  fun look cs h => ⟨unescapeGo_ok look (cs.length + 1) cs (by omega) h, rfl⟩

/-- C6 witness: the amended theorem applied to the escape-free-of-bad-forms
    text `ab\u0041`. -/
theorem c6_witness :
    (∃ out, unescape noNames "ab\\u0041".toList = .ok out) ∧
      unescape noNames "\\u12/x".toList = .ok "\\u12/x".toList :=
  c6_escape_errors noNames "ab\\u0041".toList (by decide)

/-- C7 (longest-match determinism): for every insertion order of the
    dictionary abc→X, ab→Y, a→f, b→g, bc→Q, translating `abcabc` yields
    `XX` — at each position the longest matching key wins. -/
theorem c7_longest_match :
    ∀ d : TDict, d.Perm d7 → translate d "abcabc".toList = some "XX".toList :=
  fun d h => perm_all_d7 d (List.mem_permutations'.mpr h)

/-- C7 witness: the longest-match theorem at the dictionary's own order. -/
theorem c7_witness : translate d7 "abcabc".toList = some "XX".toList :=
  c7_longest_match d7 (List.Perm.refl d7)

/-- C8 (single pass, no re-substitution): with the dictionary a→b, c→b,
    b→f, d→b, e→b, translating `abcde` yields `bfbbb`: each input character
    is substituted exactly once and replacement text is never rescanned. -/
theorem c8_single_pass : translate d8 "abcde".toList = some "bfbbb".toList := by
  decide

/-- C9 (tag stripping): the four instances of the stripping property —
    bracket tags unwrap, the cleartext marker with optional 2-letter
    uppercase language code is removed, and lowercase inner text is never
    mistaken for a language code. -/
theorem c9_tag_stripping :
    remove_tags "[text]".toList = "text".toList ∧
      remove_tags "<cleartext -text>".toList = "text".toList ∧
      remove_tags "<cleartext-LA text>".toList = "text".toList ∧
      remove_tags "<cleartext-te xt>".toList = "te xt".toList := by
  decide

/-- C10 (empty-dictionary behavior): for every document, `translate` with
    the empty dictionary raises (the empty alternation matches the empty
    string and the lookup of '' in the empty mapping fails), and never
    returns a string. -/
theorem c10_empty_dict_error : ∀ cs : Str, translate [] cs = none := by
  intro cs
  rw [translate_step]
  by_cases hc : ((cs.takeWhile notSpec).isEmpty &&
      (protRun (cs.dropWhile notSpec)).1.isEmpty) = true
  · rw [if_pos hc]
    cases cs with
    | nil => exact cipherSub_empty []
    | cons c tl =>
      dsimp only
      rw [cipherSub_empty]
      rfl
  · rw [if_neg hc]
    rw [cipherSub_empty]
    rfl

end Decode
